import Mathlib

/-!
# Verification of the SOUL semantic-core specification

A shallow embedding of the parts of the SOUL compiler front-end core
(`soul_Value.cpp`, `soul_SanityCheckPass.h` and the AST declarations)
that the specification's claims are about, together with theorems
settling each claim.

Components whose implementation is not part of the sources under study
(the `Type`/`TypeRules` headers, the `ASTVisitor` base class and the
float-formatting string utilities) are modelled from the specification
text; every such definition carries a doc comment starting with
`Modelled from the spec:`.
-/

namespace SoulSpec

/-! ## Bounded-integer types and wrap/clamp coercion

`Value::PackedData::wrapOrClampToLegalValue` in `soul_Value.cpp` clamps or
wraps an `int64` into the legal range `[0, N)` of a bounded-int type with
limit `N`.  The C++ `%` operator on `int64_t` is truncated division
remainder, i.e. `Int.tmod`.  (All intermediate values stay far inside the
`int64` range when `1 ≤ N`, so unbounded `Int` is a faithful model.)
-/

/-- The overflow policy of a bounded-integer type (spec §3: a bounded
integer carries a limit and a `wrap` or `clamp` policy). -/
inductive BoundedIntPolicy
  | wrap
  | clamp
deriving DecidableEq, Repr

/-- Embedding of `Value::PackedData::wrapOrClampToLegalValue`
(`soul_Value.cpp` lines 386-403).  The `type` argument is reduced to the
policy and the bounded-int limit, which is all the function reads. -/
def wrapOrClampToLegalValue (policy : BoundedIntPolicy) (limit : Int)
    (value : Int) : Int :=
  match policy with
  | .wrap =>
      -- value %= size; return value < 0 ? value + size : value;
      let v := Int.tmod value limit
      if v < 0 then v + limit else v
  | .clamp =>
      -- return value < 0 ? 0 : (value >= size ? size - 1 : value);
      if value < 0 then 0 else if limit ≤ value then limit - 1 else value

/-- The truncated remainder is strictly above `-N` for a positive
modulus `N`. -/
theorem tmod_gt_neg (v N : Int) (h : 0 < N) : -N < Int.tmod v N := by
  rcases v with m | m
  · exact lt_of_lt_of_le (by omega) (Int.tmod_nonneg _ (Int.ofNat_nonneg m))
  · rcases N with k | k
    · have hk : 0 < k := Int.ofNat_pos.mp h
      have he : Int.tmod (Int.negSucc m) (Int.ofNat k) = -(Int.ofNat (m.succ % k)) := rfl
      rw [he]
      have hlt : Int.ofNat (m.succ % k) < Int.ofNat k :=
        Int.ofNat_lt.mpr (Nat.mod_lt m.succ hk)
      omega
    · rw [Int.negSucc_eq] at h; omega

/-- The wrap branch computes the mathematical (euclidean) remainder. -/
theorem wrap_eq_emod (N v : Int) (h : 1 ≤ N) :
    wrapOrClampToLegalValue .wrap N v = v % N := by
  unfold wrapOrClampToLegalValue
  simp only
  have hpos : (0 : Int) < N := by omega
  have hdef : Int.tmod v N = v - N * v.tdiv N := Int.tmod_def v N
  have hlt : Int.tmod v N < N := Int.tmod_lt_of_pos v hpos
  have hgt : -N < Int.tmod v N := tmod_gt_neg v N hpos
  have hemod : Int.tmod v N % N = v % N := by
    rw [hdef, sub_eq_add_neg, ← mul_neg, Int.add_mul_emod_self_left]
  by_cases hneg : Int.tmod v N < 0
  · simp only [hneg, if_true]
    have : (Int.tmod v N + N) % N = v % N := by
      rw [Int.add_emod_self, hemod]
    rw [← this, Int.emod_eq_of_lt (by omega) (by omega)]
  · simp only [hneg, if_false]
    rw [← hemod, Int.emod_eq_of_lt (by omega) (by omega)]

/-- **C1.** For every bounded-int limit `N ≥ 1` and every source value `v`:
wrap-coercion produces `((v mod N) + N) mod N`, which lies in `[0, N)`;
clamp-coercion produces `max 0 (min (N-1) v)`; and at limit 10 the four
concrete coercions from the spec come out as 9, 0, 5 and 9. -/
theorem wrapOrClamp_spec (N v : Int) (h : 1 ≤ N) :
    (wrapOrClampToLegalValue .wrap N v = ((v % N) + N) % N
      ∧ 0 ≤ wrapOrClampToLegalValue .wrap N v
      ∧ wrapOrClampToLegalValue .wrap N v < N
      ∧ wrapOrClampToLegalValue .clamp N v = max 0 (min (N - 1) v))
    ∧ wrapOrClampToLegalValue .wrap 10 (-1) = 9
    ∧ wrapOrClampToLegalValue .clamp 10 (-1) = 0
    ∧ wrapOrClampToLegalValue .wrap 10 15 = 5
    ∧ wrapOrClampToLegalValue .clamp 10 15 = 9 := by
  have hpos : (0 : Int) < N := by omega
  refine ⟨⟨?_, ?_, ?_, ?_⟩, by decide, by decide, by decide, by decide⟩
  · rw [wrap_eq_emod N v h, Int.add_emod_self, Int.emod_emod_of_dvd _ dvd_rfl]
  · rw [wrap_eq_emod N v h]; exact Int.emod_nonneg v (by omega)
  · rw [wrap_eq_emod N v h]; exact Int.emod_lt_of_pos v hpos
  · show (if v < 0 then 0 else if N ≤ v then N - 1 else v) = max 0 (min (N - 1) v)
    split_ifs <;> omega

/-- Witness for `wrapOrClamp_spec` at `N = 10`, `v = -1`. -/
theorem wrapOrClamp_spec_witness :
    (1 : Int) ≤ 10
    ∧ (wrapOrClampToLegalValue .wrap 10 (-1) = (((-1) % 10) + 10) % 10
        ∧ 0 ≤ wrapOrClampToLegalValue .wrap 10 (-1)
        ∧ wrapOrClampToLegalValue .wrap 10 (-1) < 10
        ∧ wrapOrClampToLegalValue .clamp 10 (-1) = max 0 (min (10 - 1) (-1)))
    ∧ wrapOrClampToLegalValue .wrap 10 (-1) = 9
    ∧ wrapOrClampToLegalValue .clamp 10 (-1) = 0
    ∧ wrapOrClampToLegalValue .wrap 10 15 = 5
    ∧ wrapOrClampToLegalValue .clamp 10 15 = 9 :=
  ⟨by decide, (wrapOrClamp_spec 10 (-1) (by decide)).1,
    (wrapOrClamp_spec 10 (-1) (by decide)).2⟩

/-! ## Matching a source expression against a list of candidate types

`SanityCheckPass::expectSilentCastPossible (context, ArrayView<Type>
targetTypes, source)` (`soul_SanityCheckPass.h` lines 159-182).  The loop
consults two predicates on each candidate: exact type equality under
`ignoreVectorSize1` and `source.canSilentlyCastTo`; we abstract the
candidate type together with those two verdicts. -/

/-- Outcome of the candidate-list matching helper: silent success, the
`cannotImplicitlyCastType` error, or the `ambiguousCastBetween` error. -/
inductive CastMatchOutcome
  | ok
  | errCannotImplicitlyCast
  | errAmbiguous
deriving DecidableEq, Repr

/-- The loop of `expectSilentCastPossible` over the remaining candidates,
carrying the running `matches` counter; afterwards `matches == 0` raises
the implicit-cast error and `matches > 1` the ambiguity error. -/
def matchCandidates (isExactMatch canSilentlyCast : α → Bool) :
    List α → Nat → CastMatchOutcome
  | [], numMatches =>
      if numMatches = 0 then .errCannotImplicitlyCast
      else if numMatches > 1 then .errAmbiguous
      else .ok
  | t :: ts, numMatches =>
      -- "If we have an exact match, it doesn't matter how many other types
      --  could be used silently"
      if isExactMatch t then .ok
      else matchCandidates isExactMatch canSilentlyCast ts
        (if canSilentlyCast t then numMatches + 1 else numMatches)

/-- Embedding of the list override of
`SanityCheckPass::expectSilentCastPossible`. -/
def expectSilentCastPossibleList (isExactMatch canSilentlyCast : α → Bool)
    (targetTypes : List α) : CastMatchOutcome :=
  matchCandidates isExactMatch canSilentlyCast targetTypes 0

theorem matchCandidates_exact (isExact canSilent : α → Bool)
    (ts : List α) (m : Nat) (h : ∃ t ∈ ts, isExact t = true) :
    matchCandidates isExact canSilent ts m = .ok := by
  induction ts generalizing m with
  | nil => obtain ⟨t, ht, _⟩ := h; cases ht
  | cons a ts ih =>
      unfold matchCandidates
      by_cases ha : isExact a = true
      · simp [ha]
      · obtain ⟨t, ht, hex⟩ := h
        rcases List.mem_cons.mp ht with rfl | ht
        · exact absurd hex ha
        · simp only [ha, if_false, Bool.false_eq_true]
          exact ih _ ⟨t, ht, hex⟩

theorem matchCandidates_no_exact (isExact canSilent : α → Bool)
    (ts : List α) (m : Nat) (h : ∀ t ∈ ts, isExact t = false) :
    matchCandidates isExact canSilent ts m =
      (if m + ts.countP canSilent = 0 then .errCannotImplicitlyCast
       else if m + ts.countP canSilent > 1 then .errAmbiguous
       else .ok) := by
  induction ts generalizing m with
  | nil => simp [matchCandidates]
  | cons a ts ih =>
      have ha : isExact a = false := h a (List.mem_cons_self a ts)
      unfold matchCandidates
      simp only [ha, Bool.false_eq_true, if_false]
      rw [ih _ (fun t ht => h t (List.mem_cons_of_mem a ht))]
      by_cases hs : canSilent a = true
      · simp only [hs, if_true, List.countP_cons_of_pos _ _ hs]
        have e : m + 1 + ts.countP canSilent = m + (ts.countP canSilent + 1) := by
          omega
        rw [e]
      · have hs' : canSilent a = false := by simpa using hs
        simp only [hs', Bool.false_eq_true, if_false]
        rw [List.countP_cons_of_neg canSilent ts hs]

/-- **C2.** For every pair of candidate predicates and every candidate
list: an exact match anywhere makes matching succeed regardless of how
many candidates could silently accept the source; with no exact match,
zero silent acceptors raise the implicit-cast error, two or more raise
the ambiguity error, and exactly one succeeds silently. -/
theorem expectSilentCastPossibleList_spec
    (isExact canSilent : α → Bool) (targetTypes : List α) :
    ((∃ t ∈ targetTypes, isExact t = true) →
        expectSilentCastPossibleList isExact canSilent targetTypes = .ok)
    ∧ ((∀ t ∈ targetTypes, isExact t = false) →
        (targetTypes.countP canSilent = 0 →
          expectSilentCastPossibleList isExact canSilent targetTypes
            = .errCannotImplicitlyCast)
        ∧ (2 ≤ targetTypes.countP canSilent →
          expectSilentCastPossibleList isExact canSilent targetTypes
            = .errAmbiguous)
        ∧ (targetTypes.countP canSilent = 1 →
          expectSilentCastPossibleList isExact canSilent targetTypes
            = .ok)) := by
  constructor
  · intro h
    exact matchCandidates_exact isExact canSilent targetTypes 0 h
  · intro h
    unfold expectSilentCastPossibleList
    rw [matchCandidates_no_exact isExact canSilent targetTypes 0 h]
    refine ⟨fun h0 => ?_, fun h2 => ?_, fun h1 => ?_⟩
    · rw [if_pos (by omega)]
    · rw [if_neg (by omega), if_pos (by omega)]
    · rw [if_neg (by omega), if_neg (by omega)]

/-- Witness for `expectSilentCastPossibleList_spec`: with candidates
`{int32, int64}` and a source that silently casts to both but exactly
matches `int32`, matching succeeds; the spec's ambiguity example is the
no-exact-match branch with two silent acceptors. -/
theorem expectSilentCastPossibleList_spec_witness :
    expectSilentCastPossibleList (fun t => t == 0) (fun _ => true) [0, 1]
      = CastMatchOutcome.ok
    ∧ expectSilentCastPossibleList (fun _ => false) (fun _ => true) [0, 1]
      = CastMatchOutcome.errAmbiguous :=
  ⟨(expectSilentCastPossibleList_spec (fun t => t == 0) (fun _ => true)
      [0, 1]).1 ⟨0, by decide, by decide⟩,
   ((expectSilentCastPossibleList_spec (fun _ => false) (fun _ => true)
      [(0 : Nat), 1]).2 (by simp)).2.1 (by decide)⟩

/-! ## The type model

The `Type` class itself lives in `soul_Type.h`, which is not among the
sources studied; the descriptor below is modelled from the spec's data
model (§3): primitives, bounded integers, string-literal handles,
vectors, fixed and unsized arrays and named records, each carrying the
two orthogonal `const` and `reference` flags, plus the invalid state of
a default-constructed `Type`.  Struct types are compared by the identity
of the named record they reference, represented here by the name. -/

/-- The primitive scalar kinds (spec §3). -/
inductive PrimitiveKind
  | bool_
  | int32
  | int64
  | float32
  | float64
  | void_
deriving DecidableEq, Repr

/-- Modelled from the spec: the `Type` descriptor (soul_Type.h is not
among the sources studied); spec §3's tag set with `const`/`reference`
flags. -/
inductive Ty
  | invalid
  | primitive (p : PrimitiveKind) (isConst isRef : Bool)
  | boundedInt (policy : BoundedIntPolicy) (limit : Int) (isConst isRef : Bool)
  | stringLiteral (isConst isRef : Bool)
  | vector (p : PrimitiveKind) (lanes : Nat) (isConst isRef : Bool)
  | fixedArray (element : Ty) (size : Nat) (isConst isRef : Bool)
  | unsizedArray (element : Ty) (isConst isRef : Bool)
  | structT (name : String) (isConst isRef : Bool)
deriving DecidableEq, Repr

/-- `Type::isValid`: false exactly for a default-constructed type. -/
def Ty.isValid : Ty → Bool
  | .invalid => false
  | _ => true

/-- `Type::isUnsizedArray`. -/
def Ty.isUnsizedArray : Ty → Bool
  | .unsizedArray .. => true
  | _ => false

/-- `Type::removeConstIfPresent`: the same type with the `const` flag
cleared. -/
def Ty.removeConstIfPresent : Ty → Ty
  | .invalid => .invalid
  | .primitive p _ r => .primitive p false r
  | .boundedInt pol l _ r => .boundedInt pol l false r
  | .stringLiteral _ r => .stringLiteral false r
  | .vector p n _ r => .vector p n false r
  | .fixedArray e s _ r => .fixedArray e s false r
  | .unsizedArray e _ r => .unsizedArray e false r
  | .structT n _ r => .structT n false r

/-- `Type::isIdentical`: strict equality of the descriptors. -/
def Ty.isIdentical (a b : Ty) : Bool := a == b

/-- Whether a primitive kind is an integer. -/
def PrimitiveKind.isInteger : PrimitiveKind → Bool
  | .int32 | .int64 => true
  | _ => false

/-- Modelled from the spec: `TypeRules::canCastTo` (soul_TypeRules.h is
not among the sources studied).  Spec §4.1: the permissive oracle allows
everything the silent-cast relation allows (widening numerics, adding
const, vector-of-size-1 ⇄ scalar, assignment to a broader-range
bounded-int, wrapping a string literal into its handle) plus
narrowing/truncating conversions and explicit casts; per the spec's §9
design note on unsized arrays, it also relates unsized-array destinations
to arrays with castable element types, which is wider than the cast
`tryCastToType` actually performs. -/
def canCastTo (dest source : Ty) : Bool :=
  (dest == source)
  || dest.removeConstIfPresent == source.removeConstIfPresent
  || (match dest, source with
      | .primitive p _ _, .primitive q _ _ =>
          -- explicit conversions between storable primitives, narrowing included
          !(p == .void_) && !(q == .void_)
      | .primitive p _ _, .boundedInt .. => p.isInteger
      | .primitive p _ _, .vector q 1 _ _ => !(p == .void_) && !(q == .void_) && p == q
      | .primitive p _ _, .stringLiteral _ _ => p == .int32
      | .vector q 1 _ _, .primitive p _ _ => !(p == .void_) && !(q == .void_) && p == q
      | .boundedInt _ _ _ _, .primitive q _ _ => q.isInteger
      | .boundedInt _ _ _ _, .boundedInt _ _ _ _ => true
      | .unsizedArray e _ _, .fixedArray e2 _ _ _ => canCastTo e e2
      | .unsizedArray e _ _, .unsizedArray e2 _ _ => canCastTo e e2
      | _, _ => false)

/-- Embedding of `Value::tryCastToType` (soul_Value.cpp lines 623-638),
projected onto the type of the produced value: `some t` models returning
a valid converted value of type `t` (via `setFrom`, or the value itself
in the identical-type case), `none` models returning the invalid
`Value()`. -/
def tryCastToTypeResult (valueType destType : Ty) : Option Ty :=
  if destType.isIdentical valueType then some valueType
  else if ! canCastTo destType valueType then none
  else if destType.isUnsizedArray
          && ! (destType.removeConstIfPresent.isIdentical valueType) then none
  else some destType

/-- The non-const `int32` type. -/
def int32Ty : Ty := .primitive .int32 false false

/-- **C3 counterexample.** The castability oracle permits casting a fixed
`int32[4]` array value to the unsized `int32[]` type, but `tryCastToType`
returns the invalid value for it: the cast does *not* succeed exactly
when `canCastTo` permits it. -/
theorem tryCastToType_oracle_counterexample :
    canCastTo (Ty.unsizedArray int32Ty false false)
        (Ty.fixedArray int32Ty 4 false false) = true
    ∧ tryCastToTypeResult (Ty.fixedArray int32Ty 4 false false)
        (Ty.unsizedArray int32Ty false false) = none := by
  constructor <;> rfl

/-- **C3 (amended).** `tryCastToType` succeeds exactly when the
destination is identical to the value's type (in which case the value
itself is returned), or the castability oracle permits the cast *and*,
for an unsized-array destination, the destination minus its const flag is
identical to the value's type; in every other case the invalid value is
returned.  In particular success always implies the oracle's consent. -/
theorem tryCastToType_spec (valueType destType : Ty) :
    ((tryCastToTypeResult valueType destType).isSome =
      (destType.isIdentical valueType
        || (canCastTo destType valueType
            && !(destType.isUnsizedArray
                 && !(destType.removeConstIfPresent.isIdentical valueType)))))
    ∧ (destType.isIdentical valueType = true →
        tryCastToTypeResult valueType destType = some valueType)
    ∧ (canCastTo destType valueType = false →
        tryCastToTypeResult valueType destType = none)
    ∧ ((tryCastToTypeResult valueType destType).isSome = true →
        canCastTo destType valueType = true) := by
  have idCast : destType.isIdentical valueType = true →
      canCastTo destType valueType = true := by
    intro h1
    unfold canCastTo
    unfold Ty.isIdentical at h1
    simp [h1]
  refine ⟨?_, ?_, ?_, ?_⟩
  · unfold tryCastToTypeResult
    split_ifs with h1 h2 h3
    · simp [h1]
    · have h1' : destType.isIdentical valueType = false := by
        revert h1; cases destType.isIdentical valueType <;> simp
      have h2' : canCastTo destType valueType = false := by
        revert h2; cases canCastTo destType valueType <;> simp
      simp [h1', h2']
    · have h1' : destType.isIdentical valueType = false := by
        revert h1; cases destType.isIdentical valueType <;> simp
      simp [h1', h3]
    · have hc : canCastTo destType valueType = true := by
        revert h2; cases canCastTo destType valueType <;> simp
      have hg : (destType.isUnsizedArray
          && !destType.removeConstIfPresent.isIdentical valueType) = false := by
        revert h3
        cases destType.isUnsizedArray
          && !destType.removeConstIfPresent.isIdentical valueType <;> simp
      simp [hc, hg]
  · intro h; unfold tryCastToTypeResult; rw [if_pos h]
  · intro h; unfold tryCastToTypeResult
    split_ifs with h1 h2 h3
    · exfalso
      have hc : canCastTo destType valueType = true := idCast h1
      rw [h] at hc; cases hc
    · rfl
    · rfl
    · exfalso; rw [h] at h2; simp at h2
  · intro h
    unfold tryCastToTypeResult at h
    split_ifs at h with h1 h2 h3
    · exact idCast h1
    · simp at h
    · simp at h
    · revert h2; cases canCastTo destType valueType <;> simp

/-- Witness for `tryCastToType_spec`: the identical-type cast returns the
value itself, and a refused oracle means an invalid result. -/
theorem tryCastToType_spec_witness :
    Ty.isIdentical int32Ty int32Ty = true
    ∧ tryCastToTypeResult int32Ty int32Ty = some int32Ty :=
  ⟨by decide, (tryCastToType_spec int32Ty int32Ty).2.1 (by decide)⟩

/-! ## Value equality

`Value::operator==` (soul_Value.cpp lines 602-608) together with
`Value::PackedData::equals` (lines 107-113).  A `Value` owns a type and a
packed byte buffer of exactly the type's packed size; default-constructed
values have the invalid type.  `memcmp` over the two equally-sized
buffers is byte-list equality. -/

/-- A `Value`: type descriptor plus packed byte buffer. -/
structure Value where
  type : Ty
  bytes : List Nat
deriving DecidableEq, Repr

/-- `Value::PackedData::equals`: identical types, then `memcmp` of the
packed buffers. -/
def packedDataEquals (a b : Value) : Bool :=
  a.type.isIdentical b.type && (a.bytes == b.bytes)

/-- `Value::operator==`: both-invalid compare equal; otherwise identical
types and equal packed data. -/
def valueEq (a b : Value) : Bool :=
  if ! a.type.isValid then ! b.type.isValid
  else a.type.isIdentical b.type && packedDataEquals a b

/-- **C10.** Two invalid values compare equal; an invalid value never
equals a valid one (in either order); and for two valid values, equality
holds exactly when the types are identical and the packed buffers agree
byte for byte — in particular a type mismatch alone forces inequality. -/
theorem valueEq_spec (a b : Value) :
    (a.type.isValid = false → b.type.isValid = false → valueEq a b = true)
    ∧ (a.type.isValid = false → b.type.isValid = true → valueEq a b = false)
    ∧ (a.type.isValid = true → b.type.isValid = false → valueEq a b = false)
    ∧ (a.type.isValid = true → b.type.isValid = true →
        (valueEq a b = true ↔ (a.type = b.type ∧ a.bytes = b.bytes)))
    ∧ (a.type.isValid = true → a.type ≠ b.type → valueEq a b = false) := by
  refine ⟨?_, ?_, ?_, ?_, ?_⟩
  · intro ha hb; unfold valueEq; simp [ha, hb]
  · intro ha hb; unfold valueEq; simp [ha, hb]
  · intro ha hb
    unfold valueEq packedDataEquals Ty.isIdentical
    have : a.type ≠ b.type := by
      intro h; rw [h] at ha; rw [ha] at hb; cases hb
    simp [ha, this]
  · intro ha _
    unfold valueEq packedDataEquals Ty.isIdentical
    simp only [ha, Bool.not_true, Bool.false_eq_true, if_false]
    constructor
    · intro h
      simp only [Bool.and_assoc, Bool.and_eq_true, beq_iff_eq] at h
      exact ⟨h.1, h.2.2⟩
    · rintro ⟨h1, h2⟩
      simp [h1, h2]
  · intro ha hne
    unfold valueEq packedDataEquals Ty.isIdentical
    simp [ha, hne]

/-- Witness for `valueEq_spec`: two default-constructed (invalid) values
compare equal, and an invalid value differs from a valid `int32` zero. -/
theorem valueEq_spec_witness :
    valueEq ⟨Ty.invalid, []⟩ ⟨Ty.invalid, []⟩ = true
    ∧ valueEq ⟨Ty.invalid, []⟩ ⟨int32Ty, [0, 0, 0, 0]⟩ = false :=
  ⟨(valueEq_spec ⟨Ty.invalid, []⟩ ⟨Ty.invalid, []⟩).1 (by decide) (by decide),
   (valueEq_spec ⟨Ty.invalid, []⟩ ⟨int32Ty, [0, 0, 0, 0]⟩).2.1
      (by decide) (by decide)⟩

/-! ## Expression resolution kinds

The AST expression nodes assign an `ExpressionKind` at construction and
override `isResolved` (`soul_SanityCheckPass.h`'s AST declarations).  The
fragment below embeds every node family whose constructor-assigned kind
is `unknown` — `QualifiedIdentifier`, `SubscriptWithBrackets`,
`SubscriptWithChevrons`, `DotOperator`, `CommaSeparatedList` and
`StaticAssertion` — plus `Constant` (kind `value`, always resolved) as a
resolved building block, each with its `isResolved` override. -/

/-- `AST::ExpressionKind` (line 797). -/
inductive ExpressionKind
  | value
  | type_
  | endpoint
  | processor
  | unknown
deriving DecidableEq, Repr

/-- The embedded fragment of the AST expression node universe. -/
inductive AExpr
  | constant
  | qualifiedIdentifier
  | subscriptWithBrackets (lhs : AExpr)
  | subscriptWithChevrons (lhs rhs : AExpr)
  | dotOperator (lhs : AExpr)
  | commaSeparatedList (items : List AExpr)
  | staticAssertion (condition : AExpr)

/-- The `ExpressionKind` each constructor passes to `Expression`'s
constructor (lines 2184, 2206, 2220, 2232, 2496, 2692, 2992). -/
def AExpr.kind : AExpr → ExpressionKind
  | .constant => .value
  | .qualifiedIdentifier => .unknown
  | .subscriptWithBrackets _ => .unknown
  | .subscriptWithChevrons _ _ => .unknown
  | .dotOperator _ => .unknown
  | .commaSeparatedList _ => .unknown
  | .staticAssertion _ => .unknown

mutual

/-- The `isResolved` overrides of the embedded nodes (lines 2189, 2208,
2222, 2234, 2498, 2696-2703, 2998). -/
def AExpr.isResolved : AExpr → Bool
  | .constant => true
  | .qualifiedIdentifier => false
  | .subscriptWithBrackets _ => false
  | .subscriptWithChevrons _ _ => false
  | .dotOperator _ => false
  | .commaSeparatedList items => AExpr.allItemsResolved items
  | .staticAssertion condition => condition.isResolved

/-- `CommaSeparatedList::isResolved`'s loop: false as soon as one item is
unresolved. -/
def AExpr.allItemsResolved : List AExpr → Bool
  | [] => true
  | i :: is => i.isResolved && AExpr.allItemsResolved is

end

/-- **C4 counterexample.** An empty `CommaSeparatedList` has expression
kind `unknown` yet reports itself resolved, and so does a
`StaticAssertion` whose condition is a constant: a node of kind `unknown`
can return `true` from `isResolved`. -/
theorem kindUnknown_isResolved_counterexample :
    (AExpr.commaSeparatedList []).kind = .unknown
    ∧ (AExpr.commaSeparatedList []).isResolved = true
    ∧ (AExpr.staticAssertion .constant).kind = .unknown
    ∧ (AExpr.staticAssertion .constant).isResolved = true := by
  refine ⟨rfl, rfl, rfl, rfl⟩

/-- **C4 (amended).** Among the nodes constructed with kind `unknown`,
`QualifiedIdentifier`, both subscript forms and `DotOperator` always
report unresolved; `CommaSeparatedList` and `StaticAssertion` also carry
kind `unknown` but report resolved exactly when all their items,
respectively their condition, are resolved. -/
theorem kindUnknown_isResolved_spec :
    (AExpr.qualifiedIdentifier.kind = .unknown
      ∧ AExpr.qualifiedIdentifier.isResolved = false)
    ∧ (∀ l, (AExpr.subscriptWithBrackets l).kind = .unknown
        ∧ (AExpr.subscriptWithBrackets l).isResolved = false)
    ∧ (∀ l r, (AExpr.subscriptWithChevrons l r).kind = .unknown
        ∧ (AExpr.subscriptWithChevrons l r).isResolved = false)
    ∧ (∀ l, (AExpr.dotOperator l).kind = .unknown
        ∧ (AExpr.dotOperator l).isResolved = false)
    ∧ (∀ items, (AExpr.commaSeparatedList items).kind = .unknown
        ∧ ((AExpr.commaSeparatedList items).isResolved
            = items.all AExpr.isResolved))
    ∧ (∀ c, (AExpr.staticAssertion c).kind = .unknown
        ∧ (AExpr.staticAssertion c).isResolved = c.isResolved) := by
  refine ⟨⟨rfl, rfl⟩, fun l => ⟨rfl, rfl⟩, fun l r => ⟨rfl, rfl⟩,
    fun l => ⟨rfl, rfl⟩, fun items => ⟨rfl, ?_⟩, fun c => ⟨rfl, rfl⟩⟩
  show AExpr.allItemsResolved items = items.all AExpr.isResolved
  induction items with
  | nil => rfl
  | cons i is ih => simp [AExpr.allItemsResolved, List.all_cons, ih]

/-! ## Pre-resolution structural check of a processor

`SanityCheckPass::checkOverallStructureOfProcessor`
(`soul_SanityCheckPass.h` lines 259-294).  A processor or graph module is
reduced to the data the check reads: its kind, the endpoint directions
and kinds, and for each function whether it is the `run` function or the
user-init function, whether its return type resolves to `void`, and its
parameter count.  `details = none` models an endpoint declared through a
child path, which has no `EndpointDetails`. -/

/-- `EndpointKind` (value/stream/event). -/
inductive EndpointKind
  | value
  | stream
  | event
deriving DecidableEq, Repr

/-- The data of an `AST::Function` consulted by the structural check. -/
structure FunctionDecl where
  isRunFunction : Bool
  isUserInitFunction : Bool
  returnTypeIsVoid : Bool
  numParameters : Nat
deriving DecidableEq, Repr

/-- The data of an `AST::EndpointDeclaration` consulted by the check. -/
structure EndpointDecl where
  isInput : Bool
  details : Option EndpointKind
deriving DecidableEq, Repr

/-- Whether the checked module is an `AST::Processor` or an `AST::Graph`
(the `cast<AST::Processor>` in the source succeeds only for the former). -/
inductive ModuleKind
  | processor
  | graph
deriving DecidableEq, Repr

/-- A processor-or-graph module as seen by the structural check. -/
structure ProcessorModule where
  kind : ModuleKind
  endpoints : List EndpointDecl
  functions : List FunctionDecl
deriving Repr

/-- The diagnostics the structural check can raise. -/
inductive StructureError
  | processorNeedsAnOutput
  | functionMustBeVoid
  | functionHasParams
  | processorNeedsRunFunction
  | multipleRunFunctions
deriving DecidableEq, Repr

/-- `ModuleBase::getNumOutputs` (lines 1238, 1289-1298): the number of
non-input endpoints. -/
def getNumOutputs (m : ProcessorModule) : Nat :=
  (m.endpoints.filter (fun e => !e.isInput)).length

/-- `e->details != nullptr && ! isEvent (e->details->kind)` (line 287). -/
def isNonEventEndpoint (e : EndpointDecl) : Bool :=
  match e.details with
  | some k => !(k == .event)
  | none => false

/-- The function loop of `checkOverallStructureOfProcessor` (lines
266-281), returning the run-function count unless a run/user-init
function fails the void/parameterless requirements. -/
def checkRunOrInitFunctions :
    List FunctionDecl → Nat → Except StructureError Nat
  | [], n => .ok n
  | f :: fs, n =>
      if f.isRunFunction || f.isUserInitFunction then
        if ! f.returnTypeIsVoid then .error .functionMustBeVoid
        else if f.numParameters ≠ 0 then .error .functionHasParams
        else checkRunOrInitFunctions fs (if f.isRunFunction then n + 1 else n)
      else checkRunOrInitFunctions fs n

/-- Embedding of `SanityCheckPass::checkOverallStructureOfProcessor`
(lines 259-294). -/
def checkOverallStructureOfProcessor (m : ProcessorModule) :
    Except StructureError Unit :=
  if getNumOutputs m = 0 then .error .processorNeedsAnOutput
  else
    match m.kind with
    | .graph => .ok ()
    | .processor =>
        match checkRunOrInitFunctions m.functions 0 with
        | .error e => .error e
        | .ok numRunFunctions =>
            if numRunFunctions = 0 && m.endpoints.any isNonEventEndpoint then
              .error .processorNeedsRunFunction
            else if numRunFunctions > 1 then .error .multipleRunFunctions
            else .ok ()

/-- A function list is well-formed when every run/user-init function in
it is void and parameterless. -/
def runFnsWellFormed (fs : List FunctionDecl) : Prop :=
  ∀ f ∈ fs, (f.isRunFunction || f.isUserInitFunction) = true →
    f.returnTypeIsVoid = true ∧ f.numParameters = 0

theorem checkRunOrInitFunctions_ok (fs : List FunctionDecl) (n : Nat)
    (h : runFnsWellFormed fs) :
    checkRunOrInitFunctions fs n = .ok (n + fs.countP (·.isRunFunction)) := by
  induction fs generalizing n with
  | nil => simp [checkRunOrInitFunctions, List.countP_nil]
  | cons f fs ih =>
      have htail : runFnsWellFormed fs :=
        fun g hg => h g (List.mem_cons_of_mem f hg)
      unfold checkRunOrInitFunctions
      by_cases hri : (f.isRunFunction || f.isUserInitFunction) = true
      · obtain ⟨hv, hp⟩ := h f (List.mem_cons_self f fs) hri
        rw [if_pos hri, if_neg (by simp [hv]), if_neg (by simp [hp]),
          ih _ htail]
        by_cases hr : f.isRunFunction = true
        · rw [if_pos hr, List.countP_cons_of_pos _ _ (by simpa using hr)]
          congr 1
          omega
        · rw [if_neg hr,
            List.countP_cons_of_neg _ _ (by simpa using hr)]
      · rw [if_neg hri, ih _ htail,
          List.countP_cons_of_neg _ _ (by
            intro hc
            exact hri (by simp [of_decide_eq_true, hc]))]

theorem checkRunOrInitFunctions_error (fs : List FunctionDecl) (n : Nat)
    (h : ∃ f ∈ fs, (f.isRunFunction || f.isUserInitFunction) = true
        ∧ ¬(f.returnTypeIsVoid = true ∧ f.numParameters = 0)) :
    (checkRunOrInitFunctions fs n = .error .functionMustBeVoid
      ∨ checkRunOrInitFunctions fs n = .error .functionHasParams) := by
  induction fs generalizing n with
  | nil => obtain ⟨f, hf, _⟩ := h; cases hf
  | cons g fs ih =>
      unfold checkRunOrInitFunctions
      by_cases hri : (g.isRunFunction || g.isUserInitFunction) = true
      · rw [if_pos hri]
        by_cases hv : g.returnTypeIsVoid = true
        · rw [if_neg (by simp [hv])]
          by_cases hp : g.numParameters = 0
          · rw [if_neg (by simp [hp])]
            obtain ⟨f, hf, hfri, hbad⟩ := h
            rcases List.mem_cons.mp hf with rfl | hf
            · exact absurd ⟨hv, hp⟩ hbad
            · exact ih _ ⟨f, hf, hfri, hbad⟩
          · rw [if_pos (by simpa using hp)]
            right; rfl
        · rw [if_pos (by simpa using hv)]
          left; rfl
      · rw [if_neg hri]
        obtain ⟨f, hf, hfri, hbad⟩ := h
        rcases List.mem_cons.mp hf with rfl | hf
        · exact absurd hfri hri
        · exact ih _ ⟨f, hf, hfri, hbad⟩

/-- **C5.** The pre-resolution structural check: a processor or graph
with no output endpoint is rejected; a run/user-init function that is not
void-and-parameterless raises an error; with well-formed functions, more
than one run function raises `multipleRunFunctions`; with zero run
functions an error is raised exactly when some endpoint has details of a
non-event kind; and one well-formed run function passes. -/
theorem checkOverallStructure_spec (m : ProcessorModule) :
    (getNumOutputs m = 0 →
      checkOverallStructureOfProcessor m = .error .processorNeedsAnOutput)
    ∧ (m.kind = .processor → 0 < getNumOutputs m →
        (∃ f ∈ m.functions,
            (f.isRunFunction || f.isUserInitFunction) = true
            ∧ ¬(f.returnTypeIsVoid = true ∧ f.numParameters = 0)) →
        (checkOverallStructureOfProcessor m = .error .functionMustBeVoid
          ∨ checkOverallStructureOfProcessor m = .error .functionHasParams))
    ∧ (m.kind = .processor → 0 < getNumOutputs m →
        runFnsWellFormed m.functions →
        2 ≤ m.functions.countP (·.isRunFunction) →
        checkOverallStructureOfProcessor m = .error .multipleRunFunctions)
    ∧ (m.kind = .processor → 0 < getNumOutputs m →
        runFnsWellFormed m.functions →
        m.functions.countP (·.isRunFunction) = 0 →
        ((m.endpoints.any isNonEventEndpoint = true →
            checkOverallStructureOfProcessor m
              = .error .processorNeedsRunFunction)
          ∧ (m.endpoints.any isNonEventEndpoint = false →
            checkOverallStructureOfProcessor m = .ok ())))
    ∧ (m.kind = .processor → 0 < getNumOutputs m →
        runFnsWellFormed m.functions →
        m.functions.countP (·.isRunFunction) = 1 →
        checkOverallStructureOfProcessor m = .ok ()) := by
  refine ⟨?_, ?_, ?_, ?_, ?_⟩
  · intro h0
    unfold checkOverallStructureOfProcessor
    rw [if_pos h0]
  · intro hk hout hbad
    unfold checkOverallStructureOfProcessor
    rw [if_neg (by omega), hk]
    dsimp only
    rcases checkRunOrInitFunctions_error m.functions 0 hbad with he | he <;>
      rw [he]
    · left; rfl
    · right; rfl
  · intro hk hout hwf hcnt
    unfold checkOverallStructureOfProcessor
    rw [if_neg (by omega), hk]
    dsimp only
    rw [checkRunOrInitFunctions_ok _ _ hwf]
    dsimp only
    rw [if_neg (by
        simp only [Bool.and_eq_true, decide_eq_true_eq]
        rintro ⟨h0, -⟩
        omega),
      if_pos (by omega)]
  · intro hk hout hwf hcnt
    unfold checkOverallStructureOfProcessor
    rw [if_neg (by omega), hk]
    dsimp only
    rw [checkRunOrInitFunctions_ok _ _ hwf]
    dsimp only
    constructor
    · intro hany
      rw [if_pos (by simp [hcnt, hany])]
    · intro hany
      rw [if_neg (by simp [hcnt, hany]), if_neg (by omega)]
  · intro hk hout hwf hcnt
    unfold checkOverallStructureOfProcessor
    rw [if_neg (by omega), hk]
    dsimp only
    rw [checkRunOrInitFunctions_ok _ _ hwf]
    dsimp only
    rw [if_neg (by simp [hcnt]), if_neg (by omega)]

/-- Witness for `checkOverallStructure_spec`: a processor with one output
stream endpoint and two well-formed run functions raises
`multipleRunFunctions`. -/
theorem checkOverallStructure_spec_witness :
    checkOverallStructureOfProcessor
      ⟨.processor,
        [⟨false, some .stream⟩],
        [⟨true, false, true, 0⟩, ⟨true, false, true, 0⟩]⟩
      = .error .multipleRunFunctions :=
  (checkOverallStructure_spec
      ⟨.processor,
        [⟨false, some .stream⟩],
        [⟨true, false, true, 0⟩, ⟨true, false, true, 0⟩]⟩).2.2.1
    rfl (by decide)
    (by intro f hf _; fin_cases hf <;> exact ⟨rfl, rfl⟩)
    (by decide)

/-! ## Recursive type-declaration detection

`SanityCheckPass::RecursiveTypeDeclVisitStack` (`soul_SanityCheckPass.h`
lines 55-76): `push` throws `typeContainsItself` when the declaration
being re-entered is the one on top of the stack, `typesReferToEachOther`
when it is deeper down; `PostResolutionChecks::visit(StructDeclaration)`
(lines 518-527) and `visit(UsingDeclaration)` (lines 529-534) push the
declaration, visit its members, then pop.  Declarations are identified by
index; the most recently pushed element (C++ `stack.back()`) is the head
of the list. -/

/-- The two recursion diagnostics; `typesReferToEachOther` carries the
re-entered declaration and the declaration on top of the stack (the
arguments of `Errors::typesReferToEachOther (t.name, stack.back()->name)`). -/
inductive TypeRecursionError
  | typeContainsItself (t : Nat)
  | typesReferToEachOther (t top : Nat)
deriving DecidableEq, Repr

/-- `RecursiveTypeDeclVisitStack::push` (lines 59-70). -/
def visitStackPush (t : Nat) (stack : List Nat) :
    Except TypeRecursionError (List Nat) :=
  if stack.contains t then
    if stack.head? = some t then .error (.typeContainsItself t)
    else .error (.typesReferToEachOther t (stack.headD t))
  else .ok (t :: stack)

mutual

/-- Modelled from the spec: the post-resolution visitor pushes each
struct/using declaration, visits the type declarations its members refer
to (`refs`), then pops (spec §4.5 item 3; the push/pop placement is
`visit(StructDeclaration)` in the sources, the recursive traversal lives
in the `ASTVisitor` base class which is not among the sources studied).
Popping is implicit: the caller's stack is unchanged.  The fuel only
bounds the recursion depth and is not exhausted in the concrete examples
below. -/
def visitTypeDecl (refs : Nat → List Nat) :
    Nat → Nat → List Nat → Except TypeRecursionError Unit
  | 0, _, _ => .ok ()
  | fuel + 1, t, stack =>
      match visitStackPush t stack with
      | .error e => .error e
      | .ok stack' => visitTypeDeclRefs refs fuel (refs t) stack'

/-- Visits each referenced declaration in order, stopping at the first
error. -/
def visitTypeDeclRefs (refs : Nat → List Nat) :
    Nat → List Nat → List Nat → Except TypeRecursionError Unit
  | _, [], _ => .ok ()
  | fuel, t :: ts, stack =>
      match visitTypeDecl refs fuel t stack with
      | .error e => .error e
      | .ok () => visitTypeDeclRefs refs fuel ts stack

end

/-- The member references of `struct S { S s; }`: declaration 0 refers to
itself. -/
def selfRefs : Nat → List Nat := fun t => if t = 0 then [0] else []

/-- The member references of `struct A { B b; }  struct B { A a; }`:
declarations 0 and 1 refer to each other. -/
def mutualRefs : Nat → List Nat :=
  fun t => if t = 0 then [1] else if t = 1 then [0] else []

/-- **C7.** `push` discriminates the two recursion errors: re-entering
the declaration on top of the stack raises "type contains itself",
re-entering one deeper down raises "types refer to each other" (naming
the re-entered declaration and the top); otherwise the declaration is
pushed.  Visiting `S { S s; }` therefore reports self-containment of `S`,
and visiting `A { B b; }  B { A a; }` reports that `A` and `B` refer to
each other. -/
theorem recursiveTypeStack_spec :
    (∀ t stack,
      (stack.contains t = true →
        (stack.head? = some t →
            visitStackPush t stack = .error (.typeContainsItself t))
        ∧ (stack.head? ≠ some t →
            visitStackPush t stack
              = .error (.typesReferToEachOther t (stack.headD t))))
      ∧ (stack.contains t = false →
          visitStackPush t stack = .ok (t :: stack)))
    ∧ visitTypeDecl selfRefs 4 0 []
        = .error (.typeContainsItself 0)
    ∧ visitTypeDecl mutualRefs 4 0 []
        = .error (.typesReferToEachOther 0 1) := by
  refine ⟨fun t stack => ⟨fun hc => ⟨fun hh => ?_, fun hh => ?_⟩, fun hc => ?_⟩,
    by simp [visitTypeDecl, visitTypeDeclRefs, visitStackPush, selfRefs],
    by simp [visitTypeDecl, visitTypeDeclRefs, visitStackPush, mutualRefs]⟩
  · unfold visitStackPush
    rw [if_pos hc, if_pos hh]
  · unfold visitStackPush
    rw [if_pos hc, if_neg hh]
  · unfold visitStackPush
    rw [if_neg (by rw [hc]; simp)]

/-- Witness for `recursiveTypeStack_spec`: re-entering declaration 0 when
it is on top of the stack raises the self-containment error, re-entering
it under declaration 1 raises the mutual-reference error naming both. -/
theorem recursiveTypeStack_spec_witness :
    visitStackPush 0 [0] = .error (.typeContainsItself 0)
    ∧ visitStackPush 0 [1, 0] = .error (.typesReferToEachOther 0 1) :=
  ⟨((recursiveTypeStack_spec.1 0 [0]).1 (by decide)).1 (by decide),
   ((recursiveTypeStack_spec.1 0 [1, 0]).1 (by decide)).2 (by decide)⟩

/-! ## Pre/post-increment collision detection

`SanityCheckPass::PreAndPostIncOperatorCheck` (`soul_SanityCheckPass.h`
lines 623-678).  `visitObject(Statement)` gives every statement fresh
`variablesModified`/`variablesReferenced` sets; a `VariableRef` raises
`preIncDecCollision` when its variable was already modified by an
inc/dec in the same statement and is otherwise recorded as referenced; an
inc/dec whose target is a `VariableRef` raises the diagnostic when the
variable was already referenced and otherwise records it in both sets.
Statements are statement trees over variable references (identified by
index); `subExprs` stands for any other node, whose children the base
`ASTVisitor` visits in order (the traversal order is modelled from the
spec, the base class not being among the sources studied). -/

/-- A statement/expression tree as seen by the inc/dec check. -/
inductive SExpr
  | varRef (v : Nat)
  | preOrPostIncOrDec (target : SExpr)
  | subExprs (children : List SExpr)
deriving BEq, Repr

/-- The two per-statement tracking sets. -/
structure IncDecState where
  variablesModified : List Nat
  variablesReferenced : List Nat
deriving DecidableEq, Repr

mutual

/-- The `visit(VariableRef)` / `visit(PreOrPostIncOrDec)` overrides
(lines 643-671); `.error ()` models throwing `preIncDecCollision`. -/
def visitIncDec : SExpr → IncDecState → Except Unit IncDecState
  | .varRef v, st =>
      if st.variablesModified.contains v then .error ()
      else .ok { st with
        variablesReferenced := st.variablesReferenced ++ [v] }
  | .preOrPostIncOrDec t, st =>
      match t with
      | .varRef v =>
          if st.variablesReferenced.contains v then .error ()
          else .ok ⟨st.variablesModified ++ [v],
                    st.variablesReferenced ++ [v]⟩
      | other => visitIncDec other st
  | .subExprs cs, st => visitIncDecList cs st

/-- The base visitor walking a node's children in order. -/
def visitIncDecList : List SExpr → IncDecState → Except Unit IncDecState
  | [], st => .ok st
  | c :: cs, st =>
      match visitIncDec c st with
      | .error e => .error e
      | .ok st' => visitIncDecList cs st'

end

/-- Whether a single statement passes the check when started, as
`visitObject(Statement)` does, with fresh empty tracking sets. -/
def statementOK (s : SExpr) : Bool :=
  match visitIncDec s ⟨[], []⟩ with
  | .ok _ => true
  | .error _ => false

/-- The pass over a statement list: each statement is visited with fresh
sets; the first collision aborts. -/
def checkStatements : List SExpr → Bool
  | [] => true
  | s :: ss =>
      match visitIncDec s ⟨[], []⟩ with
      | .error _ => false
      | .ok _ => checkStatements ss

mutual

/-- Whether variable `v` occurs anywhere in the tree (as a read or as an
inc/dec target — both record it in the referenced set). -/
def touchesVar (v : Nat) : SExpr → Bool
  | .varRef u => u == v
  | .preOrPostIncOrDec t => touchesVar v t
  | .subExprs cs => touchesVarList v cs

def touchesVarList (v : Nat) : List SExpr → Bool
  | [] => false
  | c :: cs => touchesVar v c || touchesVarList v cs

end

mutual

/-- Whether the tree contains an inc/dec whose direct target is
`varRef v` (the only shape the check records as a modification). -/
def incrementsVar (v : Nat) : SExpr → Bool
  | .varRef _ => false
  | .preOrPostIncOrDec t =>
      match t with
      | .varRef u => u == v
      | other => incrementsVar v other
  | .subExprs cs => incrementsVarList v cs

def incrementsVarList (v : Nat) : List SExpr → Bool
  | [] => false
  | c :: cs => incrementsVar v c || incrementsVarList v cs

end

theorem contains_of_mem {l : List Nat} {x : Nat} (h : x ∈ l) :
    l.contains x = true := by
  simpa using h

theorem mem_of_contains {l : List Nat} {x : Nat} (h : l.contains x = true) :
    x ∈ l := by
  simpa using h

mutual

/-- The tracking sets only grow during a successful visit. -/
theorem visitIncDec_mono (e : SExpr) (st st' : IncDecState)
    (h : visitIncDec e st = .ok st') :
    (∀ x, x ∈ st.variablesModified → x ∈ st'.variablesModified)
    ∧ (∀ x, x ∈ st.variablesReferenced → x ∈ st'.variablesReferenced) := by
  cases e with
  | varRef v =>
      simp only [visitIncDec] at h
      split_ifs at h with hc <;> cases h
      exact ⟨fun x hx => hx, fun x hx => List.mem_append_left _ hx⟩
  | preOrPostIncOrDec t =>
      cases t with
      | varRef v =>
          simp only [visitIncDec] at h
          split_ifs at h with hc <;> cases h
          exact ⟨fun x hx => List.mem_append_left _ hx,
                 fun x hx => List.mem_append_left _ hx⟩
      | preOrPostIncOrDec t2 =>
          simp only [visitIncDec] at h
          exact visitIncDec_mono _ st st' h
      | subExprs cs =>
          simp only [visitIncDec] at h
          exact visitIncDecList_mono cs st st' h
  | subExprs cs =>
      simp only [visitIncDec] at h
      exact visitIncDecList_mono cs st st' h

theorem visitIncDecList_mono (cs : List SExpr) (st st' : IncDecState)
    (h : visitIncDecList cs st = .ok st') :
    (∀ x, x ∈ st.variablesModified → x ∈ st'.variablesModified)
    ∧ (∀ x, x ∈ st.variablesReferenced → x ∈ st'.variablesReferenced) := by
  cases cs with
  | nil =>
      simp only [visitIncDecList] at h
      cases h
      exact ⟨fun x hx => hx, fun x hx => hx⟩
  | cons c cs =>
      simp only [visitIncDecList] at h
      cases hc : visitIncDec c st with
      | error e => rw [hc] at h; cases h
      | ok st1 =>
          rw [hc] at h
          obtain ⟨m1, r1⟩ := visitIncDec_mono c st st1 hc
          obtain ⟨m2, r2⟩ := visitIncDecList_mono cs st1 st' h
          exact ⟨fun x hx => m2 x (m1 x hx), fun x hx => r2 x (r1 x hx)⟩

end

mutual

/-- After a successful visit, a variable occurring anywhere in the tree
is in the referenced set. -/
theorem visitIncDec_touch (v : Nat) (e : SExpr) (st st' : IncDecState)
    (h : visitIncDec e st = .ok st') (ht : touchesVar v e = true) :
    v ∈ st'.variablesReferenced := by
  cases e with
  | varRef u =>
      simp only [touchesVar, beq_iff_eq] at ht
      subst ht
      simp only [visitIncDec] at h
      split_ifs at h with hc <;> cases h
      exact List.mem_append_right _ (List.mem_singleton.mpr rfl)
  | preOrPostIncOrDec t =>
      cases t with
      | varRef u =>
          simp only [touchesVar, beq_iff_eq] at ht
          subst ht
          simp only [visitIncDec] at h
          split_ifs at h with hc <;> cases h
          exact List.mem_append_right _ (List.mem_singleton.mpr rfl)
      | preOrPostIncOrDec t2 =>
          simp only [visitIncDec] at h
          exact visitIncDec_touch v _ st st' h
            (by simpa only [touchesVar] using ht)
      | subExprs cs =>
          simp only [visitIncDec] at h
          exact visitIncDecList_touch v cs st st' h
            (by simpa only [touchesVar] using ht)
  | subExprs cs =>
      simp only [visitIncDec] at h
      exact visitIncDecList_touch v cs st st' h
        (by simpa only [touchesVar] using ht)

theorem visitIncDecList_touch (v : Nat) (cs : List SExpr)
    (st st' : IncDecState) (h : visitIncDecList cs st = .ok st')
    (ht : touchesVarList v cs = true) : v ∈ st'.variablesReferenced := by
  cases cs with
  | nil => simp [touchesVarList] at ht
  | cons c cs =>
      simp only [visitIncDecList] at h
      cases hc : visitIncDec c st with
      | error e => rw [hc] at h; cases h
      | ok st1 =>
          rw [hc] at h
          simp only [touchesVarList, Bool.or_eq_true] at ht
          rcases ht with ht | ht
          · exact (visitIncDecList_mono cs st1 st' h).2 v
              (visitIncDec_touch v c st st1 hc ht)
          · exact visitIncDecList_touch v cs st1 st' h ht

end

mutual

/-- After a successful visit, a variable incremented somewhere in the
tree is in both tracking sets. -/
theorem visitIncDec_inc (v : Nat) (e : SExpr) (st st' : IncDecState)
    (h : visitIncDec e st = .ok st') (hi : incrementsVar v e = true) :
    v ∈ st'.variablesModified ∧ v ∈ st'.variablesReferenced := by
  cases e with
  | varRef u => simp [incrementsVar] at hi
  | preOrPostIncOrDec t =>
      cases t with
      | varRef u =>
          simp only [incrementsVar, beq_iff_eq] at hi
          subst hi
          simp only [visitIncDec] at h
          split_ifs at h with hc <;> cases h
          exact ⟨List.mem_append_right _ (List.mem_singleton.mpr rfl),
                 List.mem_append_right _ (List.mem_singleton.mpr rfl)⟩
      | preOrPostIncOrDec t2 =>
          simp only [visitIncDec] at h
          exact visitIncDec_inc v _ st st' h
            (by simpa only [incrementsVar] using hi)
      | subExprs cs =>
          simp only [visitIncDec] at h
          exact visitIncDecList_inc v cs st st' h
            (by simpa only [incrementsVar] using hi)
  | subExprs cs =>
      simp only [visitIncDec] at h
      exact visitIncDecList_inc v cs st st' h
        (by simpa only [incrementsVar] using hi)

theorem visitIncDecList_inc (v : Nat) (cs : List SExpr)
    (st st' : IncDecState) (h : visitIncDecList cs st = .ok st')
    (hi : incrementsVarList v cs = true) :
    v ∈ st'.variablesModified ∧ v ∈ st'.variablesReferenced := by
  cases cs with
  | nil => simp [incrementsVarList] at hi
  | cons c cs =>
      simp only [visitIncDecList] at h
      cases hc : visitIncDec c st with
      | error e => rw [hc] at h; cases h
      | ok st1 =>
          rw [hc] at h
          simp only [incrementsVarList, Bool.or_eq_true] at hi
          rcases hi with hi | hi
          · obtain ⟨hm, hr⟩ := visitIncDec_inc v c st st1 hc hi
            obtain ⟨m2, r2⟩ := visitIncDecList_mono cs st1 st' h
            exact ⟨m2 v hm, r2 v hr⟩
          · exact visitIncDecList_inc v cs st1 st' h hi

end

mutual

/-- Visiting an occurrence of a variable already in both tracking sets
raises the collision diagnostic. -/
theorem visitIncDec_touch_collides (v : Nat) (e : SExpr)
    (st : IncDecState) (hm : v ∈ st.variablesModified)
    (hr : v ∈ st.variablesReferenced) (ht : touchesVar v e = true) :
    visitIncDec e st = .error () := by
  cases e with
  | varRef u =>
      simp only [touchesVar, beq_iff_eq] at ht
      subst ht
      simp only [visitIncDec]
      rw [if_pos (contains_of_mem hm)]
  | preOrPostIncOrDec t =>
      cases t with
      | varRef u =>
          simp only [touchesVar, beq_iff_eq] at ht
          subst ht
          simp only [visitIncDec]
          rw [if_pos (contains_of_mem hr)]
      | preOrPostIncOrDec t2 =>
          simp only [visitIncDec]
          exact visitIncDec_touch_collides v _ st hm hr
            (by simpa only [touchesVar] using ht)
      | subExprs cs =>
          simp only [visitIncDec]
          exact visitIncDecList_touch_collides v cs st hm hr
            (by simpa only [touchesVar] using ht)
  | subExprs cs =>
      simp only [visitIncDec]
      exact visitIncDecList_touch_collides v cs st hm hr
        (by simpa only [touchesVar] using ht)

theorem visitIncDecList_touch_collides (v : Nat) (cs : List SExpr)
    (st : IncDecState) (hm : v ∈ st.variablesModified)
    (hr : v ∈ st.variablesReferenced) (ht : touchesVarList v cs = true) :
    visitIncDecList cs st = .error () := by
  cases cs with
  | nil => simp [touchesVarList] at ht
  | cons c cs =>
      simp only [touchesVarList, Bool.or_eq_true] at ht
      simp only [visitIncDecList]
      rcases ht with ht | ht
      · rw [visitIncDec_touch_collides v c st hm hr ht]
      · cases hc : visitIncDec c st with
        | error e => cases e; rfl
        | ok st1 =>
            obtain ⟨m1, r1⟩ := visitIncDec_mono c st st1 hc
            exact visitIncDecList_touch_collides v cs st1
              (m1 v hm) (r1 v hr) ht

end

mutual

/-- Visiting an inc/dec of a variable already referenced raises the
collision diagnostic. -/
theorem visitIncDec_inc_collides (v : Nat) (e : SExpr)
    (st : IncDecState) (hr : v ∈ st.variablesReferenced)
    (hi : incrementsVar v e = true) :
    visitIncDec e st = .error () := by
  cases e with
  | varRef u => simp [incrementsVar] at hi
  | preOrPostIncOrDec t =>
      cases t with
      | varRef u =>
          simp only [incrementsVar, beq_iff_eq] at hi
          subst hi
          simp only [visitIncDec]
          rw [if_pos (contains_of_mem hr)]
      | preOrPostIncOrDec t2 =>
          simp only [visitIncDec]
          exact visitIncDec_inc_collides v _ st hr
            (by simpa only [incrementsVar] using hi)
      | subExprs cs =>
          simp only [visitIncDec]
          exact visitIncDecList_inc_collides v cs st hr
            (by simpa only [incrementsVar] using hi)
  | subExprs cs =>
      simp only [visitIncDec]
      exact visitIncDecList_inc_collides v cs st hr
        (by simpa only [incrementsVar] using hi)

theorem visitIncDecList_inc_collides (v : Nat) (cs : List SExpr)
    (st : IncDecState) (hr : v ∈ st.variablesReferenced)
    (hi : incrementsVarList v cs = true) :
    visitIncDecList cs st = .error () := by
  cases cs with
  | nil => simp [incrementsVarList] at hi
  | cons c cs =>
      simp only [incrementsVarList, Bool.or_eq_true] at hi
      simp only [visitIncDecList]
      rcases hi with hi | hi
      · rw [visitIncDec_inc_collides v c st hr hi]
      · cases hc : visitIncDec c st with
        | error e => cases e; rfl
        | ok st1 =>
            obtain ⟨m1, r1⟩ := visitIncDec_mono c st st1 hc
            exact visitIncDecList_inc_collides v cs st1 (r1 v hr) hi

end

/-- The statement `i = i++ + i` (the assignment visits its target
variable reference and then the right-hand side). -/
def stmtIEqIppPlusI : SExpr :=
  .subExprs [.varRef 0,
    .subExprs [.preOrPostIncOrDec (.varRef 0), .varRef 0]]

/-- The statement `i++;`. -/
def stmtIncI : SExpr := .preOrPostIncOrDec (.varRef 0)

/-- The statement `j = i + 1;` (the constant does not touch variables). -/
def stmtJEqIPlus1 : SExpr := .subExprs [.varRef 1, .varRef 0]

/-- **C8.** Within one statement, a variable incremented in one part and
touched in a sequentially adjacent part — in either order — raises the
`preIncDecCollision` diagnostic; the tracking sets are recreated for each
statement, so a statement list passes exactly when every single statement
passes from fresh sets; `i = i++ + i` is rejected while `i++;` followed
by `j = i + 1;` is accepted. -/
theorem preIncDecCollision_spec :
    (∀ v : Nat, ∀ a b : SExpr, incrementsVar v a = true →
        touchesVar v b = true →
        visitIncDec (.subExprs [a, b]) ⟨[], []⟩ = .error ())
    ∧ (∀ v : Nat, ∀ a b : SExpr, touchesVar v a = true →
        incrementsVar v b = true →
        visitIncDec (.subExprs [a, b]) ⟨[], []⟩ = .error ())
    ∧ (∀ stmts : List SExpr, checkStatements stmts = stmts.all statementOK)
    ∧ checkStatements [stmtIEqIppPlusI] = false
    ∧ checkStatements [stmtIncI, stmtJEqIPlus1] = true := by
  refine ⟨?_, ?_, ?_, ?_, ?_⟩
  · intro v a b hi ht
    simp only [visitIncDec, visitIncDecList]
    cases ha : visitIncDec a ⟨[], []⟩ with
    | error e => cases e; rfl
    | ok st1 =>
        obtain ⟨hm, hr⟩ := visitIncDec_inc v a ⟨[], []⟩ st1 ha hi
        dsimp only
        rw [visitIncDec_touch_collides v b st1 hm hr ht]
  · intro v a b ht hi
    simp only [visitIncDec, visitIncDecList]
    cases ha : visitIncDec a ⟨[], []⟩ with
    | error e => cases e; rfl
    | ok st1 =>
        have hr := visitIncDec_touch v a ⟨[], []⟩ st1 ha ht
        dsimp only
        rw [visitIncDec_inc_collides v b st1 hr hi]
  · intro stmts
    induction stmts with
    | nil => rfl
    | cons s ss ih =>
        simp only [checkStatements, List.all_cons, statementOK]
        cases visitIncDec s ⟨[], []⟩ with
        | error e => rfl
        | ok st => simpa using ih
  · simp [checkStatements, stmtIEqIppPlusI, visitIncDec, visitIncDecList]
  · simp [checkStatements, stmtIncI, stmtJEqIPlus1, visitIncDec,
      visitIncDecList]

/-- Witness for `preIncDecCollision_spec`: `i++ + i` inside one statement
collides. -/
theorem preIncDecCollision_spec_witness :
    incrementsVar 0 stmtIncI = true
    ∧ touchesVar 0 (SExpr.varRef 0) = true
    ∧ visitIncDec (.subExprs [stmtIncI, .varRef 0]) ⟨[], []⟩ = .error () :=
  ⟨by simp [stmtIncI, incrementsVar],
   by simp [touchesVar],
   preIncDecCollision_spec.1 0 stmtIncI (.varRef 0)
     (by simp [stmtIncI, incrementsVar]) (by simp [touchesVar])⟩

/-! ## The value printer

`Value::PackedData::print` (`soul_Value.cpp` lines 38-93) walks the
packed data as directed by the type and drives a `ValuePrinter`; the
default printer hooks (lines 679-726) emit literal syntax.  The packed
data viewed through its type is embedded as a typed value tree `PV`;
scalar leaves carry what `getAs<T>()` reads from the buffer.  Braces in
the output are written `\x7b`/`\x7d`. -/

/-- Modelled from the spec: the payload of a float value as the printer
observes it.  `floatToAccurateString`/`doubleToAccurateString` are only
declared in the string-utility header among the sources studied, so a
nonzero finite float carries the accurate round-trippable decimal string
that utility renders it as (spec §4.2: "floats as accurate
round-trippable decimal").  `zero` is positive zero (all-zero packed
bytes). -/
inductive FloatVal
  | zero
  | nan
  | inf
  | ninf
  | finite (accurate : String)
deriving DecidableEq, Repr

/-- A value's packed data viewed through its type: the shape
`PackedData::print` dispatches on.  `arr` covers both arrays and vectors
(`type.isArrayOrVector()`, printed with the array hooks); `boundedV` is a
bounded-int payload (printed via `printInt32`); `unsizedArr` carries the
constant-table handle, `none` standing for a null pointer. -/
inductive PV
  | i32 (v : Int)
  | i64 (v : Int)
  | boolV (b : Bool)
  | f32 (f : FloatVal)
  | f64 (f : FloatVal)
  | boundedV (v : Int)
  | stringLit (handle : Nat)
  | unsizedArr (content : Option Nat)
  | arr (elems : List PV)
  | structV (members : List PV)
deriving BEq, Repr

mutual

/-- `PackedData::isZero` (lines 95-105): every packed byte is zero. -/
def PV.isZero : PV → Bool
  | .i32 v => v == 0
  | .i64 v => v == 0
  | .boolV b => !b
  | .f32 f => f == .zero
  | .f64 f => f == .zero
  | .boundedV v => v == 0
  | .stringLit h => h == 0
  | .unsizedArr none => true
  | .unsizedArr (some h) => h == 0
  | .arr es => PV.allZero es
  | .structV es => PV.allZero es

def PV.allZero : List PV → Bool
  | [] => true
  | e :: es => e.isZero && PV.allZero es

end

/-- `ValuePrinter::printFloat32` (lines 684-691). -/
def printFloat32 : FloatVal → String
  | .zero => "0"
  | .nan => "_nan32"
  | .inf => "_inf32"
  | .ninf => "_ninf32"
  | .finite s => s ++ "f"

/-- `ValuePrinter::printFloat64` (lines 693-700). -/
def printFloat64 : FloatVal → String
  | .zero => "0"
  | .nan => "_nan64"
  | .inf => "_inf64"
  | .ninf => "_ninf64"
  | .finite s => s

/-- Modelled from the spec: `toHexString` (declared in the string
utilities, not defined among the sources studied): lowercase hex digits
of the handle. -/
def toHexString (n : Nat) : String :=
  String.mk (Nat.toDigits 16 n)

mutual

/-- `PackedData::print` driving the default `ValuePrinter` (lines 38-93
and 679-726): primitives print their literal form, `int64` with an `L`
suffix, bools as `true`/`false`, bounded ints as their `printInt32`
payload; a string-literal handle prints as the double-quoted dictionary
string when a dictionary is supplied, else as the numeric handle; an
unsized array prints its handle in hex (or `{}` for a null pointer);
nonzero arrays/vectors and nonempty nonzero structs print brace-bracketed
comma-separated members; everything else falls through to
`printZeroInitialiser`, i.e. `{}`. -/
def printPV (dict : Option (Nat → String)) : PV → String
  | .i32 v => toString v
  | .i64 v => toString v ++ "L"
  | .boolV b => if b then "true" else "false"
  | .f32 f => printFloat32 f
  | .f64 f => printFloat64 f
  | .boundedV v => toString v
  | .stringLit h =>
      match dict with
      | some d => "\"" ++ d h ++ "\""
      | none => toString h
  | .unsizedArr none => "\x7b\x7d"
  | .unsizedArr (some h) => "0x" ++ toHexString h
  | .arr es =>
      if PV.allZero es then "\x7b\x7d"
      else "\x7b " ++ printPVList dict es ++ " \x7d"
  | .structV es =>
      if es.isEmpty || PV.allZero es then "\x7b\x7d"
      else "\x7b " ++ printPVList dict es ++ " \x7d"

/-- The member loop with its `isFirst` separator flag. -/
def printPVList (dict : Option (Nat → String)) : List PV → String
  | [] => ""
  | [e] => printPV dict e
  | e :: es => printPV dict e ++ ", " ++ printPVList dict es

end

theorem intercalate_go_cons (s : String) (as : List String)
    (a acc : String) :
    String.intercalate.go acc s (a :: as)
      = acc ++ s ++ String.intercalate.go a s as := by
  induction as generalizing a acc with
  | nil => rfl
  | cons b bs ih =>
      show String.intercalate.go (acc ++ s ++ a) s (b :: bs)
        = acc ++ s ++ String.intercalate.go a s (b :: bs)
      rw [ih b (acc ++ s ++ a), ih b a]
      simp [String.append_assoc]

theorem printPVList_eq_intercalate (dict : Option (Nat → String))
    (es : List PV) :
    printPVList dict es = String.intercalate ", " (es.map (printPV dict)) := by
  induction es with
  | nil => rfl
  | cons e es ih =>
      cases es with
      | nil => rfl
      | cons e2 es2 =>
          show printPV dict e ++ ", " ++ printPVList dict (e2 :: es2)
            = String.intercalate ", "
                (printPV dict e :: printPV dict e2 :: es2.map (printPV dict))
          rw [ih]
          show _ = String.intercalate.go (printPV dict e) ", "
            (printPV dict e2 :: es2.map (printPV dict))
          rw [intercalate_go_cons]
          rfl

/-- **C9 counterexample.** A `float32` zero prints as `"0"`, whose last
character is `0`, not the `f` suffix the claim requires of every float32
value (`printFloat32` special-cases `value == 0` before the
accurate-decimal path). -/
theorem valuePrinter_float_zero_counterexample :
    printPV none (PV.f32 FloatVal.zero) = "0"
    ∧ (printPV none (PV.f32 FloatVal.zero)).data.getLast? = some (Char.ofNat 48)
    ∧ Char.ofNat 48 ≠ Char.ofNat 102 := by
  refine ⟨rfl, ?_, by decide⟩
  show ("0" : String).data.getLast? = some (Char.ofNat 48)
  decide

/-- **C9 (amended).** The default printer renders booleans as
`true`/`false`; every *nonzero finite* float32 as its accurate
round-trippable decimal with an `f` suffix, while float zeroes print as
`0`; int64 values with an `L` suffix; NaN and infinities as the reserved
tokens `_nan32`/`_inf32`/`_ninf32` and their 64-bit counterparts;
nonzero aggregates brace-bracketed and comma-separated; all-zero
aggregates as `{}`; and a string-literal handle as the decoded string in
double quotes when a dictionary is supplied, else as the numeric
handle. -/
theorem valuePrinter_spec (dict : Nat → String) :
    (∀ b, printPV none (.boolV b) = if b then "true" else "false")
    ∧ (∀ v : Int, printPV none (.i64 v) = toString v ++ "L")
    ∧ (∀ s, printPV none (.f32 (.finite s)) = s ++ "f")
    ∧ printPV none (.f32 .zero) = "0"
    ∧ printPV none (.f32 .nan) = "_nan32"
    ∧ printPV none (.f32 .inf) = "_inf32"
    ∧ printPV none (.f32 .ninf) = "_ninf32"
    ∧ printPV none (.f64 .nan) = "_nan64"
    ∧ printPV none (.f64 .inf) = "_inf64"
    ∧ printPV none (.f64 .ninf) = "_ninf64"
    ∧ (∀ es, PV.allZero es = false →
        printPV none (.arr es)
          = "\x7b " ++ String.intercalate ", " (es.map (printPV none))
            ++ " \x7d")
    ∧ (∀ es, PV.allZero es = true → printPV none (.arr es) = "\x7b\x7d")
    ∧ (∀ es, es ≠ [] → PV.allZero es = false →
        printPV none (.structV es)
          = "\x7b " ++ String.intercalate ", " (es.map (printPV none))
            ++ " \x7d")
    ∧ (∀ es, PV.allZero es = true →
        printPV none (.structV es) = "\x7b\x7d")
    ∧ (∀ h, printPV (some dict) (.stringLit h) = "\"" ++ dict h ++ "\"")
    ∧ (∀ h, printPV none (.stringLit h) = toString h) := by
  refine ⟨fun b => rfl, fun v => rfl, fun s => rfl, rfl, rfl, rfl, rfl,
    rfl, rfl, rfl, fun es hz => ?_, fun es hz => ?_,
    fun es hne hz => ?_, fun es hz => ?_, fun h => rfl, fun h => rfl⟩
  · simp only [printPV, hz, Bool.false_eq_true, if_false]
    rw [printPVList_eq_intercalate]
  · simp only [printPV, hz, if_true]
  · have hne' : es.isEmpty = false := by
      cases es with
      | nil => exact absurd rfl hne
      | cons a l => rfl
    simp only [printPV, hne', hz, Bool.or_self, Bool.false_eq_true, if_false]
    rw [printPVList_eq_intercalate]
  · simp only [printPV, hz, Bool.or_true, if_true]

/-- Witness for `valuePrinter_spec`: a one-element nonzero int array
prints as `{ 1 }`. -/
theorem valuePrinter_spec_witness :
    PV.allZero [PV.i32 1] = false
    ∧ printPV none (.arr [PV.i32 1])
        = "\x7b " ++ String.intercalate ", " ([PV.i32 1].map (printPV none))
          ++ " \x7d" :=
  ⟨by decide, (valuePrinter_spec (fun _ => "")).2.2.2.2.2.2.2.2.2.2.1
      [PV.i32 1] (by decide)⟩

/-! ## The graph cycle detector

`AST::Graph::CycleDetector` (`soul_SanityCheckPass.h` lines 1488-1565).
The constructor makes a node per processor instance and, for every
connection *without* a delay element, records the source instance in the
destination instance's `sources` list; `check()` then walks the sources
from every node keeping a stack of the nodes on the current path, and
throws `feedbackInGraph` with the path trace as soon as a node already on
the stack is re-entered.  Instances are modelled by index and `findNode`
by index lookup; the visited stack is a list with the most recent node at
the head. -/

/-- An `AST::Connection` as the detector sees it: source and destination
instance indices and whether `delayLength` is present. -/
structure Conn where
  src : Nat
  dst : Nat
  hasDelay : Bool
deriving DecidableEq, Repr

/-- A graph: `numNodes` processor instances (indices `0..numNodes-1`) and
its connections. -/
structure GraphModel where
  numNodes : Nat
  connections : List Conn
deriving Repr

/-- The `sources` list the constructor builds for node `d` (lines
1492-1499): the source of every delay-free connection between known
instances whose destination is `d`. -/
def sourcesOf (g : GraphModel) (d : Nat) : List Nat :=
  (g.connections.filter
    (fun c => !c.hasDelay && decide (c.src < g.numNodes)
      && decide (c.dst < g.numNodes) && c.dst == d)).map (·.src)

mutual

/-- `CycleDetector::check (node, stack, errorContext)` (lines 1542-1552)
with `throwCycleError` (lines 1554-1564): a node already on the stack
raises the trace `stack ++ [stack top]`; otherwise the node is pushed and
its sources are checked.  The stack always holds distinct indices below
`numNodes`, so the `ok` guard taken when its length reaches `numNodes` is
unreachable; it only bounds the recursion depth. -/
def checkNode (g : GraphModel) (m : Nat) (stack : List Nat) :
    Except (List Nat) Unit :=
  if m ∈ stack then .error (stack ++ [stack.headD m])
  else if g.numNodes ≤ stack.length then .ok ()
  else checkSources g (sourcesOf g m) (m :: stack)
termination_by (g.numNodes - stack.length, 0)

/-- The loop over a node's sources (lines 1550-1551). -/
def checkSources (g : GraphModel) (l : List Nat) (stack : List Nat) :
    Except (List Nat) Unit :=
  match l with
  | [] => .ok ()
  | s :: ss =>
      match checkNode g s stack with
      | .error e => .error e
      | .ok () => checkSources g ss stack
termination_by (g.numNodes - stack.length, l.length + 1)

end

/-- `CycleDetector::check()` (lines 1502-1506): run the check from every
node with an empty stack. -/
def cycleCheck (g : GraphModel) : Except (List Nat) Unit :=
  checkSources g (List.range g.numNodes) []

/-- Consecutive elements of the list are joined by delay-free
connections in the connection direction: for adjacent `a, b` some
delay-free connection runs `a -> b`. -/
def walkOK (g : GraphModel) : List Nat → Bool
  | [] => true
  | [_] => true
  | a :: b :: t => (sourcesOf g b).contains a && walkOK g (b :: t)

/-- A directed cycle of delay-free connections: a walk of at least one
edge that starts and ends at the same instance. -/
def IsCycle (g : GraphModel) (l : List Nat) : Prop :=
  2 ≤ l.length ∧ walkOK g l = true ∧ l.head? = l.getLast?

/-- The graph has a directed cycle among its processor instances formed
solely by delay-free connections. -/
def HasCycle (g : GraphModel) : Prop := ∃ l, IsCycle g l

/-- The walk relation as the DFS traverses it: for adjacent `a, b` the
node `b` is a source of `a`. -/
def dfsWalkOK (g : GraphModel) : List Nat → Bool
  | [] => true
  | [_] => true
  | a :: b :: t => (sourcesOf g a).contains b && dfsWalkOK g (b :: t)

theorem sourcesOf_src_lt (g : GraphModel) {s d : Nat}
    (h : s ∈ sourcesOf g d) : s < g.numNodes := by
  unfold sourcesOf at h
  obtain ⟨c, hc, rfl⟩ := List.mem_map.mp h
  have h2 := (List.mem_filter.mp hc).2
  simp only [Bool.and_eq_true, decide_eq_true_eq] at h2
  exact h2.1.1.2

theorem sourcesOf_dst_lt (g : GraphModel) {s d : Nat}
    (h : s ∈ sourcesOf g d) : d < g.numNodes := by
  unfold sourcesOf at h
  obtain ⟨c, hc, rfl⟩ := List.mem_map.mp h
  have h2 := (List.mem_filter.mp hc).2
  simp only [Bool.and_eq_true, decide_eq_true_eq, beq_iff_eq] at h2
  exact h2.2 ▸ h2.1.2

theorem nodup_bounded_length (l : List Nat) (n : Nat) (hnd : l.Nodup)
    (hb : ∀ x ∈ l, x < n) : l.length ≤ n := by
  have hsub : l.toFinset ⊆ Finset.range n := by
    intro x hx
    rw [List.mem_toFinset] at hx
    exact Finset.mem_range.mpr (hb x hx)
  have hcard := Finset.card_le_card hsub
  rwa [List.toFinset_card_of_nodup hnd, Finset.card_range] at hcard

theorem walkOK_append_left (g : GraphModel) :
    ∀ l t, walkOK g (l ++ t) = true → walkOK g l = true := by
  intro l
  induction l with
  | nil => intro t _; rfl
  | cons a l ih =>
      intro t h
      cases l with
      | nil => rfl
      | cons b l2 =>
          simp only [List.cons_append] at h
          unfold walkOK at h ⊢
          simp only [Bool.and_eq_true] at h ⊢
          exact ⟨h.1, ih t (by simpa using h.2)⟩

/-- A node found on the stack closes a delay-free cycle: the stack
segment from the node back to its previous occurrence is a walk that
starts and ends at the same instance. -/
theorem cycle_of_mem_stack (g : GraphModel) (m : Nat) (stack : List Nat)
    (hm : m ∈ stack) (hw : walkOK g (m :: stack) = true) : HasCycle g := by
  obtain ⟨pre, post, rfl⟩ := List.append_of_mem hm
  refine ⟨(m :: pre) ++ [m], ?_, ?_, ?_⟩
  · simp
  · apply walkOK_append_left g ((m :: pre) ++ [m]) post
    have he : ((m :: pre) ++ [m]) ++ post = m :: (pre ++ m :: post) := by
      simp
    rw [he]
    exact hw
  · rw [List.getLast?_concat]
    rfl

theorem checkSources_error_sound (g : GraphModel) (stack : List Nat)
    (node_sound : ∀ s tr, walkOK g (s :: stack) = true →
      checkNode g s stack = .error tr → HasCycle g) :
    ∀ l tr, (∀ s ∈ l, walkOK g (s :: stack) = true) →
      checkSources g l stack = .error tr → HasCycle g := by
  intro l
  induction l with
  | nil =>
      intro tr _ h
      unfold checkSources at h
      cases h
  | cons s ss ih =>
      intro tr hws herr
      unfold checkSources at herr
      cases hcn : checkNode g s stack with
      | error e =>
          exact node_sound s e (hws s (List.mem_cons_self s ss)) hcn
      | ok u =>
          cases u
          rw [hcn] at herr
          exact ih tr (fun x hx => hws x (List.mem_cons_of_mem s hx)) herr

/-- Soundness of the stack walk: an error raised from a node whose path
to the root is a delay-free walk exhibits a cycle. -/
theorem checkNode_error_sound (g : GraphModel) :
    ∀ k stack m tr, g.numNodes - stack.length ≤ k →
      walkOK g (m :: stack) = true →
      checkNode g m stack = .error tr → HasCycle g := by
  intro k
  induction k with
  | zero =>
      intro stack m tr hk hw herr
      unfold checkNode at herr
      by_cases hm : m ∈ stack
      · exact cycle_of_mem_stack g m stack hm hw
      · rw [if_neg hm, if_pos (by omega)] at herr
        cases herr
  | succ k ih =>
      intro stack m tr hk hw herr
      unfold checkNode at herr
      by_cases hm : m ∈ stack
      · exact cycle_of_mem_stack g m stack hm hw
      · rw [if_neg hm] at herr
        by_cases hg : g.numNodes ≤ stack.length
        · rw [if_pos hg] at herr; cases herr
        · rw [if_neg hg] at herr
          refine checkSources_error_sound g (m :: stack) ?_
            (sourcesOf g m) tr ?_ herr
          · intro s tr2 hws hcn
            exact ih (m :: stack) s tr2
              (by simp only [List.length_cons]; omega) hws hcn
          · intro s hs
            unfold walkOK
            simp only [Bool.and_eq_true]
            exact ⟨contains_of_mem hs, hw⟩

theorem dfsWalkOK_snoc (g : GraphModel) :
    ∀ w b a, dfsWalkOK g w = true → w.getLast? = some b →
      (sourcesOf g b).contains a = true → dfsWalkOK g (w ++ [a]) = true := by
  intro w
  induction w with
  | nil => intro b a _ hlast _; cases hlast
  | cons x w ih =>
      intro b a hw hlast hab
      cases w with
      | nil =>
          have hxb : x = b := by
            simpa using hlast
          subst hxb
          simp only [List.cons_append, List.nil_append]
          unfold dfsWalkOK
          simp only [Bool.and_eq_true]
          exact ⟨hab, rfl⟩
      | cons y w2 =>
          unfold dfsWalkOK at hw
          simp only [Bool.and_eq_true] at hw
          have hlast2 : (y :: w2).getLast? = some b := by
            simpa [List.getLast?_cons_cons] using hlast
          have := ih b a hw.2 hlast2 hab
          simp only [List.cons_append]
          unfold dfsWalkOK
          simp only [Bool.and_eq_true]
          exact ⟨hw.1, by simpa using this⟩

theorem walkOK_reverse (g : GraphModel) :
    ∀ l, walkOK g l = true → dfsWalkOK g l.reverse = true := by
  intro l
  induction l with
  | nil => intro _; rfl
  | cons a l ih =>
      intro hw
      cases l with
      | nil => rfl
      | cons b l2 =>
          unfold walkOK at hw
          simp only [Bool.and_eq_true] at hw
          have hrev : (b :: l2).reverse.getLast? = some b := by
            rw [List.getLast?_reverse]
            rfl
          have hs := dfsWalkOK_snoc g (b :: l2).reverse b a
            (ih hw.2) hrev hw.1
          simpa [List.reverse_cons] using hs

theorem checkSources_forced (g : GraphModel) (stack : List Nat)
    (u : Nat) :
    ∀ l, u ∈ l → (∃ tr, checkNode g u stack = .error tr) →
      ∃ tr, checkSources g l stack = .error tr := by
  intro l
  induction l with
  | nil => intro hu; cases hu
  | cons s ss ih =>
      intro hu herr
      cases hcn : checkNode g s stack with
      | error e =>
          refine ⟨e, ?_⟩
          unfold checkSources
          rw [hcn]
      | ok u2 =>
          cases u2
          rcases List.mem_cons.mp hu with rfl | hu2
          · obtain ⟨tr, htr⟩ := herr
            rw [htr] at hcn
            cases hcn
          · obtain ⟨tr, htr⟩ := ih hu2 herr
            refine ⟨tr, ?_⟩
            unfold checkSources
            rw [hcn]
            exact htr

/-- Completeness of the stack walk: a delay-free source-walk from `m`
back into the visited stack forces the detector to raise an error. -/
theorem checkNode_forced (g : GraphModel) :
    ∀ k stack m w t, g.numNodes - stack.length ≤ k →
      stack.Nodup → (∀ x ∈ stack, x < g.numNodes) → m < g.numNodes →
      dfsWalkOK g (m :: w) = true →
      (m :: w).getLast? = some t → t ∈ stack →
      ∃ tr, checkNode g m stack = .error tr := by
  intro k
  induction k with
  | zero =>
      intro stack m w t hk hnd hb hm _ _ _
      by_cases hmem : m ∈ stack
      · refine ⟨stack ++ [stack.headD m], ?_⟩
        unfold checkNode
        rw [if_pos hmem]
      · exfalso
        have hlen : (m :: stack).length ≤ g.numNodes :=
          nodup_bounded_length (m :: stack) g.numNodes
            (List.nodup_cons.mpr ⟨hmem, hnd⟩)
            (by
              intro x hx
              rcases List.mem_cons.mp hx with rfl | hx2
              · exact hm
              · exact hb x hx2)
        simp only [List.length_cons] at hlen
        omega
  | succ k ih =>
      intro stack m w t hk hnd hb hm hwOK hlast ht
      by_cases hmem : m ∈ stack
      · refine ⟨stack ++ [stack.headD m], ?_⟩
        unfold checkNode
        rw [if_pos hmem]
      · have hlen : (m :: stack).length ≤ g.numNodes :=
          nodup_bounded_length (m :: stack) g.numNodes
            (List.nodup_cons.mpr ⟨hmem, hnd⟩)
            (by
              intro x hx
              rcases List.mem_cons.mp hx with rfl | hx2
              · exact hm
              · exact hb x hx2)
        simp only [List.length_cons] at hlen
        have hguard : ¬ g.numNodes ≤ stack.length := by omega
        cases w with
        | nil =>
            exfalso
            have : m = t := by simpa using hlast
            exact hmem (this ▸ ht)
        | cons u w2 =>
            unfold dfsWalkOK at hwOK
            simp only [Bool.and_eq_true] at hwOK
            have hu : u ∈ sourcesOf g m := mem_of_contains hwOK.1
            have hulast : (u :: w2).getLast? = some t := by
              simpa [List.getLast?_cons_cons] using hlast
            have hnode : ∃ tr, checkNode g u (m :: stack) = .error tr :=
              ih (m :: stack) u w2 t
                (by simp only [List.length_cons]; omega)
                (List.nodup_cons.mpr ⟨hmem, hnd⟩)
                (by
                  intro x hx
                  rcases List.mem_cons.mp hx with rfl | hx2
                  · exact hm
                  · exact hb x hx2)
                (sourcesOf_src_lt g hu)
                hwOK.2 hulast (List.mem_cons_of_mem m ht)
            obtain ⟨tr, htr⟩ :=
              checkSources_forced g (m :: stack) u (sourcesOf g m) hu hnode
            refine ⟨tr, ?_⟩
            unfold checkNode
            rw [if_neg hmem, if_neg hguard]
            exact htr

theorem checkSources_trace_pass (g : GraphModel) (stack : List Nat)
    (node_shape : ∀ s tr, checkNode g s stack = .error tr →
      tr ≠ [] ∧ tr.head? = tr.getLast?) :
    ∀ l tr, checkSources g l stack = .error tr →
      tr ≠ [] ∧ tr.head? = tr.getLast? := by
  intro l
  induction l with
  | nil =>
      intro tr h
      unfold checkSources at h
      cases h
  | cons s ss ih =>
      intro tr herr
      unfold checkSources at herr
      cases hcn : checkNode g s stack with
      | error e =>
          rw [hcn] at herr
          cases herr
          exact node_shape s _ hcn
      | ok u =>
          cases u
          rw [hcn] at herr
          exact ih tr herr

/-- Every trace the detector raises is the visited stack with its top
appended again, so it begins and ends at the same node. -/
theorem checkNode_trace_shape (g : GraphModel) :
    ∀ k stack m tr, g.numNodes - stack.length ≤ k →
      checkNode g m stack = .error tr →
      tr ≠ [] ∧ tr.head? = tr.getLast? := by
  intro k
  induction k with
  | zero =>
      intro stack m tr hk herr
      unfold checkNode at herr
      by_cases hm : m ∈ stack
      · rw [if_pos hm] at herr
        cases herr
        cases stack with
        | nil => cases hm
        | cons h t =>
            refine ⟨by simp, ?_⟩
            rw [List.getLast?_concat]
            simp
      · rw [if_neg hm, if_pos (by omega)] at herr
        cases herr
  | succ k ih =>
      intro stack m tr hk herr
      unfold checkNode at herr
      by_cases hm : m ∈ stack
      · rw [if_pos hm] at herr
        cases herr
        cases stack with
        | nil => cases hm
        | cons h t =>
            refine ⟨by simp, ?_⟩
            rw [List.getLast?_concat]
            simp
      · rw [if_neg hm] at herr
        by_cases hg : g.numNodes ≤ stack.length
        · rw [if_pos hg] at herr; cases herr
        · rw [if_neg hg] at herr
          refine checkSources_trace_pass g (m :: stack) ?_
            (sourcesOf g m) tr herr
          intro s tr2 hcn
          exact ih (m :: stack) s tr2
            (by simp only [List.length_cons]; omega) hcn

/-- **C6.** The cycle detector raises an error exactly when the graph has
a directed cycle among its processor instances formed solely by
delay-free connections (connections with a delay element contribute no
edges by construction of `sourcesOf`), and every raised diagnostic
carries a nonempty ordered trace of instances that begins and ends at
the same node. -/
theorem cycleDetector_spec (g : GraphModel) :
    ((∃ tr, cycleCheck g = .error tr) ↔ HasCycle g)
    ∧ (∀ tr, cycleCheck g = .error tr →
        tr ≠ [] ∧ tr.head? = tr.getLast?) := by
  refine ⟨⟨?_, ?_⟩, ?_⟩
  · rintro ⟨tr, htr⟩
    unfold cycleCheck at htr
    refine checkSources_error_sound g [] ?_ (List.range g.numNodes) tr
      ?_ htr
    · intro s tr2 hw hcn
      exact checkNode_error_sound g g.numNodes [] s tr2 (by simp) hw hcn
    · intro s _
      rfl
  · intro hcyc
    obtain ⟨l, hlen, hw, hends⟩ := hcyc
    cases l with
    | nil => simp at hlen
    | cons v rest =>
        have hlast : (v :: rest).getLast? = some v := by
          rw [← hends]; rfl
        have hrev : dfsWalkOK g (v :: rest).reverse = true :=
          walkOK_reverse g _ hw
        have hrevlast : (v :: rest).reverse.getLast? = some v := by
          rw [List.getLast?_reverse]; rfl
        have hrevhead : (v :: rest).reverse.head? = some v := by
          rw [List.head?_reverse]; exact hlast
        obtain ⟨w, hw_eq⟩ : ∃ w, (v :: rest).reverse = v :: w := by
          cases hre : (v :: rest).reverse with
          | nil => rw [hre] at hrevhead; cases hrevhead
          | cons x w =>
              rw [hre] at hrevhead
              refine ⟨w, ?_⟩
              have hx : x = v := by simpa using hrevhead
              rw [hx]
        have hwlen : w.length = rest.length := by
          have h2 := congrArg List.length hw_eq
          simp at h2
          omega
        cases w with
        | nil =>
            exfalso
            simp only [List.length_nil] at hwlen
            simp only [List.length_cons] at hlen
            omega
        | cons u w2 =>
            rw [hw_eq] at hrev hrevlast
            unfold dfsWalkOK at hrev
            simp only [Bool.and_eq_true] at hrev
            have hu : u ∈ sourcesOf g v := mem_of_contains hrev.1
            have hv_lt : v < g.numNodes := sourcesOf_dst_lt g hu
            have hu_lt : u < g.numNodes := sourcesOf_src_lt g hu
            have hulast : (u :: w2).getLast? = some v := by
              simpa [List.getLast?_cons_cons] using hrevlast
            have hnode : ∃ tr, checkNode g u [v] = .error tr :=
              checkNode_forced g g.numNodes [v] u w2 v
                (by simp)
                (List.nodup_singleton v)
                (by intro x hx; rw [List.mem_singleton.mp hx]; exact hv_lt)
                hu_lt hrev.2 hulast (List.mem_singleton.mpr rfl)
            have hvnode : ∃ tr, checkNode g v [] = .error tr := by
              obtain ⟨tr, htr⟩ :=
                checkSources_forced g [v] u (sourcesOf g v) hu hnode
              refine ⟨tr, ?_⟩
              unfold checkNode
              rw [if_neg (List.not_mem_nil v), if_neg (by simp; omega)]
              exact htr
            obtain ⟨tr, htr⟩ :=
              checkSources_forced g [] v (List.range g.numNodes)
                (List.mem_range.mpr hv_lt) hvnode
            exact ⟨tr, htr⟩
  · intro tr htr
    unfold cycleCheck at htr
    refine checkSources_trace_pass g [] ?_ (List.range g.numNodes) tr htr
    intro s tr2 hcn
    exact checkNode_trace_shape g g.numNodes [] s tr2 (by simp) hcn

/-- Witness for `cycleDetector_spec`: the graph with three instances and
zero-delay connections `0 -> 1 -> 2 -> 0` has the cycle `[0, 1, 2, 0]`,
so the detector errors on it. -/
theorem cycleDetector_spec_witness :
    ∃ tr, cycleCheck ⟨3, [⟨0, 1, false⟩, ⟨1, 2, false⟩, ⟨2, 0, false⟩]⟩
      = .error tr :=
  (cycleDetector_spec
      ⟨3, [⟨0, 1, false⟩, ⟨1, 2, false⟩, ⟨2, 0, false⟩]⟩).1.mpr
    ⟨[0, 1, 2, 0], by decide, by decide, by decide⟩

end SoulSpec
